import Mathlib

/-!
Verification of the Vespera scanning core against its specification.

Each section embeds one part of the Go source as Lean definitions
(pure functions over `String`/`List Char`/`ℚ`/`Int`) and proves the
corresponding spec claims.  Go byte strings are modelled as `String`
(`len` becomes `String.utf8ByteSize`); Go `time.Duration` values and the
`float64` EWMA arithmetic of the orchestrator are idealized as exact
rationals measured in seconds.
-/

set_option maxRecDepth 4000

namespace Vespera

/-! ### Model orchestrator: adaptive rate limiting (`internal/ai/ai_manager.go`) -/

/-- Embeds `maxInt` (ai_manager.go). -/
def maxInt (a b : Int) : Int := if a > b then a else b

/-- Embeds `minInt` (ai_manager.go). -/
def minInt (a b : Int) : Int := if a < b then a else b

/-- The `Manager` fields read by `adjustLimits`: the latency EWMA and the
base pacing parameters.  Durations are rationals in seconds (Go stores
int64 nanoseconds and mixes in `float64` arithmetic; both are idealized
as exact `ℚ`).  `baseConcurrency` is a Go `int`. -/
structure ManagerLimits where
  latencyEWMA : ℚ
  baseInterval : ℚ
  baseConcurrency : Int

/-- Embeds `Manager.adjustLimits` (ai_manager.go:435-466).  Returns the
updated EWMA together with the interval passed to
`rateLimit.UpdateInterval` and the cap passed to `limiter.UpdateMax`.
Go's `targetConcurrency = maxInt(1, baseConcurrency/2)` uses `int`
division, i.e. truncation (`Int.tdiv`). -/
def adjustLimits (m : ManagerLimits) (sample : ℚ) : ℚ × ℚ × Int :=
  let ewma := if m.latencyEWMA = 0 then sample else m.latencyEWMA * 0.8 + sample * 0.2
  let p :=
    if ewma > 25 then
      let ti := ewma / 2
      let ti := if ti < m.baseInterval then m.baseInterval else ti
      (ti, maxInt 1 (m.baseConcurrency.tdiv 2))
    else
      (m.baseInterval, m.baseConcurrency)
  let tc := if ewma > 40 then 1 else p.2
  (ewma, p.1, tc)

/-- C1: after a completed model call the orchestrator updates the latency
EWMA as `L := 0.8*L + 0.2*sample` (the first sample seeds `L` directly);
if the updated `L > 25s` the pacer interval becomes
`max(baseInterval, L/2)` and the concurrency cap `max(1, baseConcurrency/2)`;
if additionally `L > 40s` the cap becomes `1`; and if `L ≤ 25s` both the
interval and the cap are restored to the base values. -/
theorem adjustLimits_adaptation (m : ManagerLimits) (sample : ℚ) :
    (adjustLimits m sample).1 =
      (if m.latencyEWMA = 0 then sample
       else 0.8 * m.latencyEWMA + 0.2 * sample) ∧
    (adjustLimits m sample).2.1 =
      (if 25 < (adjustLimits m sample).1
       then max m.baseInterval ((adjustLimits m sample).1 / 2)
       else m.baseInterval) ∧
    (adjustLimits m sample).2.2 =
      (if 40 < (adjustLimits m sample).1 then 1
       else if 25 < (adjustLimits m sample).1 then maxInt 1 (m.baseConcurrency.tdiv 2)
       else m.baseConcurrency) := by
  by_cases h0 : m.latencyEWMA = 0 <;>
    simp only [adjustLimits, h0, if_true, if_false, reduceIte, gt_iff_lt] <;>
    refine ⟨by ring_nf, ?_, ?_⟩ <;>
    split_ifs with h1 h2 <;>
    first
      | rfl
      | linarith
      | (rw [max_eq_left]; linarith)
      | (rw [max_eq_right]; linarith)

/-! ### Response parser: severity normalization (`parser.go`, src/unnamed/part_009) -/

/-- Unicode `White_Space` code points, the set trimmed by Go's
`strings.TrimSpace`. -/
def goWhiteSpace (c : Char) : Bool :=
  decide (c = ' ' ∨ c = '\t' ∨ c = '\n' ∨ c = '\x0b' ∨ c = '\x0c' ∨ c = '\r' ∨
    c = '\x85' ∨ c = '\xa0' ∨ c = ' ' ∨
    (0x2000 ≤ c.toNat ∧ c.toNat ≤ 0x200a) ∨
    c = ' ' ∨ c = ' ' ∨ c = ' ' ∨ c = ' ' ∨ c = '　')

/-- Embeds `strings.TrimSpace`. -/
def goTrimSpace (s : String) : String :=
  ⟨((s.data.dropWhile goWhiteSpace).reverse.dropWhile goWhiteSpace).reverse⟩

/-- ASCII lowering; Go's `strings.ToLower` restricted to the ASCII range
(all keywords compared against by the severity normalizer are ASCII or
caseless Chinese, so the wider Unicode case table is irrelevant here). -/
def asciiToLower (c : Char) : Char :=
  if 'A' ≤ c ∧ c ≤ 'Z' then Char.ofNat (c.toNat + 32) else c

/-- Embeds `strings.ToLower` (see `asciiToLower`). -/
def goToLower (s : String) : String := ⟨s.data.map asciiToLower⟩

/-- Embeds `normalizeSeverity` (response parser, src/unnamed/part_009). -/
def normalizeSeverity (severity : String) : String :=
  let s := goTrimSpace severity
  if s = "" then "Unknown"
  else
    let lower := goToLower s
    if lower = "none" ∨ lower = "null" ∨ lower = "nil" then "None"
    else if lower = "safe" ∨ lower = "secure" ∨ lower = "healthy" ∨ lower = "安全" then "None"
    else if lower = "low" ∨ lower = "l" ∨ lower = "低" then "Low"
    else if lower = "medium" ∨ lower = "med" ∨ lower = "m" ∨ lower = "中" then "Medium"
    else if lower = "high" ∨ lower = "h" ∨ lower = "高" then "High"
    else if lower = "critical" ∨ lower = "crit" ∨ lower = "c" ∨ lower = "严重" then "Critical"
    else if s = "Low" ∨ s = "Medium" ∨ s = "High" ∨ s = "Critical" ∨ s = "None" then s
    else "Unknown"

/-- C3: `normalizeSeverity` maps every string into the closed set
\x7bCritical, High, Medium, Low, None, Unknown\x7d, it is idempotent,
and a blank (all-whitespace) input maps to `Unknown`. -/
theorem normalizeSeverity_closed_idempotent (s : String) :
    normalizeSeverity s ∈
      (["Critical", "High", "Medium", "Low", "None", "Unknown"] : List String) ∧
    normalizeSeverity (normalizeSeverity s) = normalizeSeverity s ∧
    (goTrimSpace s = "" → normalizeSeverity s = "Unknown") := by
  have hmem : ∀ t : String, normalizeSeverity t ∈
      (["Critical", "High", "Medium", "Low", "None", "Unknown"] : List String) := by
    intro t
    simp only [normalizeSeverity]
    split_ifs with h1 h2 h3 h4 h5 h6 h7 h8
    · simp
    · simp
    · simp
    · simp
    · simp
    · simp
    · simp
    · rcases h8 with h | h | h | h | h <;> simp [h]
    · simp
  refine ⟨hmem s, ?_, ?_⟩
  · have h := hmem s
    simp only [List.mem_cons, List.not_mem_nil, or_false] at h
    rcases h with h | h | h | h | h | h <;> rw [h] <;> decide
  · intro h
    simp [normalizeSeverity, h]

/-- Witness for the blank-input hypothesis of C3 at the concrete input
`"  "`. -/
theorem normalizeSeverity_closed_idempotent_witness :
    normalizeSeverity "  " = "Unknown" := by
  exact (normalizeSeverity_closed_idempotent "  ").2.2 (by decide)

/-! ### Explorer key rotator (`config`, src/unnamed/part_002) -/

/-- Embeds `NewAPIKeyManager` (src/unnamed/part_002:16-44).  The manager
is reduced to its stored key list; `none` models the `nil` return.  The
randomized starting index does not affect which keys are stored. -/
def newAPIKeyManager (apiKeys : List String) (fallbackKey : String) :
    Option (List String) :=
  let validKeys := apiKeys.filter (fun key => key ≠ "")
  let validKeys2 :=
    if validKeys.length = 0 ∧ fallbackKey ≠ "" then validKeys ++ [fallbackKey]
    else validKeys
  if validKeys2.length = 0 then none else some validKeys2

/-- Embeds `APIKeyManager.GetKey`: a `nil` manager yields the empty key,
otherwise the key at the current index. -/
def apiKeyManagerGetKey : Option (List String) → Nat → String
  | none, _ => ""
  | some keys, current => keys.getD current ""

/-- C4 counterexample: the constructor does not deduplicate.  On the
candidate list `["k", "k"]` (fallback `"fallback"`) the stored key list
is `["k", "k"]`, which contains the credential `"k"` twice, refuting the
claim that no credential occurs more than once. -/
theorem newAPIKeyManager_no_dedup :
    newAPIKeyManager ["k", "k"] "fallback" = some ["k", "k"] ∧
    ¬ (["k", "k"] : List String).Nodup := by
  exact ⟨rfl, by decide⟩

/-- C4 (amended): the constructor drops empty entries (without
deduplicating), so every stored list is nonempty and free of empty
entries, the fallback is used only when no non-empty candidate exists,
and the rotator is `nil` (empty key returned) exactly when all
candidates are empty and the fallback is empty. -/
theorem newAPIKeyManager_filters_empty (apiKeys : List String) (fallbackKey : String) :
    (∀ l, newAPIKeyManager apiKeys fallbackKey = some l → "" ∉ l ∧ l ≠ []) ∧
    (newAPIKeyManager apiKeys fallbackKey = none ↔
      (∀ k ∈ apiKeys, k = "") ∧ fallbackKey = "") ∧
    (∀ idx, newAPIKeyManager apiKeys fallbackKey = none →
      apiKeyManagerGetKey (newAPIKeyManager apiKeys fallbackKey) idx = "") := by
  have hfilter : ∀ k ∈ apiKeys.filter (fun key => key ≠ ""), k ≠ "" := by
    intro k hk
    simpa using (List.mem_filter.mp hk).2
  have hempty : apiKeys.filter (fun key => key ≠ "") = [] ↔ ∀ k ∈ apiKeys, k = "" := by
    rw [List.filter_eq_nil_iff]
    constructor
    · intro h k hk
      simpa using h k hk
    · intro h k hk
      simpa using h k hk
  refine ⟨?_, ⟨?_, ?_⟩, ?_⟩
  · intro l hl
    simp only [newAPIKeyManager] at hl
    by_cases hcond : (apiKeys.filter (fun key => key ≠ "")).length = 0 ∧ fallbackKey ≠ ""
    · rw [if_pos hcond, if_neg (by simp)] at hl
      injection hl with hl
      subst hl
      refine ⟨?_, by simp⟩
      intro hmem
      rcases List.mem_append.mp hmem with h | h
      · exact hfilter _ h rfl
      · rw [List.mem_singleton] at h
        exact hcond.2 h.symm
    · rw [if_neg hcond] at hl
      by_cases hlen : (apiKeys.filter (fun key => key ≠ "")).length = 0
      · rw [if_pos hlen] at hl
        cases hl
      · rw [if_neg hlen] at hl
        injection hl with hl
        subst hl
        refine ⟨fun hmem => hfilter _ hmem rfl, ?_⟩
        intro hnil
        rw [hnil] at hlen
        exact hlen rfl
  · intro hnone
    simp only [newAPIKeyManager] at hnone
    by_cases hcond : (apiKeys.filter (fun key => key ≠ "")).length = 0 ∧ fallbackKey ≠ ""
    · rw [if_pos hcond, if_neg (by simp)] at hnone
      cases hnone
    · rw [if_neg hcond] at hnone
      by_cases hlen : (apiKeys.filter (fun key => key ≠ "")).length = 0
      · refine ⟨hempty.mp (List.length_eq_zero.mp hlen), ?_⟩
        by_contra hfb
        exact hcond ⟨hlen, hfb⟩
      · rw [if_neg hlen] at hnone
        cases hnone
  · intro ⟨hall, hfb⟩
    have hl : apiKeys.filter (fun key => key ≠ "") = [] := hempty.mpr hall
    simp only [newAPIKeyManager, hl, hfb]
    simp
  · intro idx h
    rw [h]
    rfl

/-- Witness for C4 (amended): the `some` branch at `["a", ""]` with
fallback `"f"`, and the `nil` branch at `[""]` with empty fallback. -/
theorem newAPIKeyManager_filters_empty_witness :
    ("" ∉ (["a"] : List String) ∧ (["a"] : List String) ≠ []) ∧
    newAPIKeyManager [""] "" = none := by
  refine ⟨(newAPIKeyManager_filters_empty ["a", ""] "f").1 ["a"] (by rfl), ?_⟩
  exact (newAPIKeyManager_filters_empty [""] "").2.1.mpr ⟨by simp, rfl⟩

/-! ### Targeted pipeline preprocessing: dead-code prune floor
(`internal/handler/mode1_targeted.go:291-294`) -/

/-- Embeds the final-code selection of `getCachedPreprocess`
(mode1_targeted.go:291-294): `finalCode` starts as the cleaned source
and is replaced by the prune emission only when `PruneDeadCode`
succeeded (`.ok`) and the emission is at least 100 bytes long
(Go `len`). -/
def getCachedPreprocessFinalCode (cleanCode : String)
    (pruneOutcome : Except String String) : String :=
  match pruneOutcome with
  | .ok prunedCode =>
      if 100 ≤ prunedCode.utf8ByteSize then prunedCode else cleanCode
  | .error _ => cleanCode

/-- C6: the pruned emission replaces the cleaned source only when pruning
succeeded and the emitted text is at least 100 bytes; whenever the
emission is shorter than 100 bytes (or pruning failed), the cleaned
source is kept. -/
theorem getCachedPreprocessFinalCode_floor (cleanCode : String) :
    (∀ prunedCode : String, prunedCode.utf8ByteSize < 100 →
      getCachedPreprocessFinalCode cleanCode (.ok prunedCode) = cleanCode) ∧
    (∀ e : String, getCachedPreprocessFinalCode cleanCode (.error e) = cleanCode) ∧
    (∀ prunedCode : String, 100 ≤ prunedCode.utf8ByteSize →
      getCachedPreprocessFinalCode cleanCode (.ok prunedCode) = prunedCode) := by
  refine ⟨fun p hp => ?_, fun _ => rfl, fun p hp => ?_⟩
  · show (if 100 ≤ p.utf8ByteSize then p else cleanCode) = cleanCode
    rw [if_neg (by omega)]
  · show (if 100 ≤ p.utf8ByteSize then p else cleanCode) = p
    rw [if_pos hp]

/-- Witness for C6 at a 1-byte emission (kept original) and a failed
prune. -/
theorem getCachedPreprocessFinalCode_floor_witness :
    getCachedPreprocessFinalCode "contract C" (.ok "x") = "contract C" ∧
    getCachedPreprocessFinalCode "contract C" (.error "main contract not found") =
      "contract C" := by
  exact ⟨(getCachedPreprocessFinalCode_floor "contract C").1 "x" (by decide),
    (getCachedPreprocessFinalCode_floor "contract C").2.1 "main contract not found"⟩

/-! ### Bytecode-only detection (`internal/handler/common.go:29-43`) and the
pipeline skip guards -/

/-- Go rune test `(c >= '0' && c <= '9') || (c >= 'a' && c <= 'f') || (c >= 'A' && c <= 'F')`. -/
def isHexDigitChar (c : Char) : Bool :=
  decide (('0' ≤ c ∧ c ≤ '9') ∨ ('a' ≤ c ∧ c ≤ 'f') ∨ ('A' ≤ c ∧ c ≤ 'F'))

/-- Embeds `isOnlyBytecode` (common.go:29-43).  Go `len` is the UTF-8
byte length; `code[2:]` is ranged over as runes, which coincides with
`.data.drop 2` because the checked prefix `"0x"` is ASCII. -/
def isOnlyBytecode (code : String) : Bool :=
  if (goTrimSpace code).utf8ByteSize < 10 then true
  else if ¬ ("0x".data.isPrefixOf (goTrimSpace code).data) then false
  else ((goTrimSpace code).data.drop 2).all isHexDigitChar

/-- Embeds the mode-1 worker skip condition: `contract.IsBytecode` is set
to `isOnlyBytecode(code)` (mode1_targeted.go:228) and the worker skips
the contract when it is true (mode1_targeted.go:387-391). -/
def mode1ContractIsBytecode (code : String) : Bool := isOnlyBytecode code

/-- Embeds the mode-2 skip condition: `processContractMode2` returns
early when `isOnlyBytecode(contractCode)` (mode2_fuzzy.go:276-279). -/
def processContractMode2SkipsBytecode (code : String) : Bool := isOnlyBytecode code

/-- C10: every source whose trimmed byte length is under 10 is classified
bytecode-only (so both pipelines skip it) even without a `"0x"` prefix;
for trimmed length at least 10 the predicate holds exactly when the
trimmed source starts with `"0x"` followed solely by hex digits. -/
theorem isOnlyBytecode_spec (code : String) :
    ((goTrimSpace code).utf8ByteSize < 10 →
      isOnlyBytecode code = true ∧
      mode1ContractIsBytecode code = true ∧
      processContractMode2SkipsBytecode code = true) ∧
    (10 ≤ (goTrimSpace code).utf8ByteSize →
      (isOnlyBytecode code = true ↔
        "0x".data.isPrefixOf (goTrimSpace code).data = true ∧
        ∀ c ∈ (goTrimSpace code).data.drop 2, isHexDigitChar c = true)) := by
  constructor
  · intro h
    have : isOnlyBytecode code = true := by
      unfold isOnlyBytecode
      rw [if_pos h]
    exact ⟨this, this, this⟩
  · intro h
    unfold isOnlyBytecode
    rw [if_neg (by omega)]
    by_cases hpre : "0x".data.isPrefixOf (goTrimSpace code).data = true
    · rw [if_neg (by simp [hpre])]
      rw [List.all_eq_true]
      constructor
      · intro hall
        exact ⟨hpre, hall⟩
      · intro ⟨_, hall⟩
        exact hall
    · rw [if_pos (by simpa using hpre)]
      simp [hpre]

/-- Witness for C10: a short non-hex source is skipped by both pipelines,
and a 12-byte hex blob with `"0x"` prefix is classified bytecode-only. -/
theorem isOnlyBytecode_spec_witness :
    processContractMode2SkipsBytecode "ab" = true ∧
    isOnlyBytecode "0x1234abcDEF" = true := by
  refine ⟨((isOnlyBytecode_spec "ab").1 (by decide)).2.2, ?_⟩
  exact ((isOnlyBytecode_spec "0x1234abcDEF").2 (by decide)).mpr (by decide)

/-! ### Verified pipeline: zero-detector fast path
(`internal/handler/mode2_fuzzy.go`) -/

/-- A Slither detector finding, the fields consumed by `verifyDetectors`. -/
structure SlitherDetector where
  check : String
  impact : String
  confidence : String
  description : String
  lineNumbers : List Nat

/-- A verified vulnerability (`parser.Vulnerability`), the fields
assembled by `verifyDetectors`.  Go's `Type` field is `vulnType` here. -/
structure Vulnerability where
  vulnType : String
  severity : String
  description : String
  location : String
  lineNumbers : List Nat
  references : List String

/-- `VerificationStats` (mode2_fuzzy.go). -/
structure VerificationStats where
  verified : Nat
  falsePositives : Nat
deriving DecidableEq

/-- Outcome of one `AnalyzeContractWithStrategy` + parse attempt, the
external effects of one loop iteration of `verifyDetectors`. -/
inductive AICallOutcome where
  | aiError
  | parseFailed
  | parsed (isVulnerability : Bool) (reason : String) (severity : String)

/-- Embeds `verifyDetectors` (mode2_fuzzy.go:425-499): with no detectors
it returns immediately; otherwise it loops over the detectors, making
one AI call per detector (counted in the third component) and
accumulating verified vulnerabilities and stats.  The AI/parse results
are supplied by `oracle`, indexed by loop position. -/
def verifyDetectors (detectors : List SlitherDetector) (address : String)
    (oracle : Nat → AICallOutcome) :
    List Vulnerability × VerificationStats × Nat :=
  if detectors.length = 0 then ([], ⟨0, 0⟩, 0)
  else
    detectors.enum.foldl
      (fun acc (idet : Nat × SlitherDetector) =>
        let calls := acc.2.2 + 1
        match oracle idet.1 with
        | .aiError => (acc.1, acc.2.1, calls)
        | .parseFailed => (acc.1, acc.2.1, calls)
        | .parsed isReal reason severity =>
          if isReal then
            (acc.1 ++ [⟨idet.2.check, severity,
                "Slither: " ++ idet.2.description ++ "\nAI: Confirmed\nReason: " ++ reason,
                address, idet.2.lineNumbers,
                ["Slither Detector: " ++ idet.2.check]⟩],
             ⟨acc.2.1.verified + 1, acc.2.1.falsePositives⟩, calls)
          else
            (acc.1, ⟨acc.2.1.verified, acc.2.1.falsePositives + 1⟩, calls))
      ([], ⟨0, 0⟩, 0)

/-- The summary string of `processContractMode2` (mode2_fuzzy.go:314). -/
def mode2Summary (slitherCount verified falsePositives : Nat) : String :=
  "Slither: " ++ toString slitherCount ++ " | Verified: " ++ toString verified ++
    " | FP: " ++ toString falsePositives

/-- The claim-relevant fields of the `ScanResult` emitted by
`processContractMode2` (mode2_fuzzy.go:309-332). -/
structure ScanResultMode2 where
  vulnerabilities : List Vulnerability
  summary : String

/-- Embeds the result assembly of `processContractMode2`: verified
vulnerabilities and the summary over the detector count and stats. -/
def processContractMode2Result (detectors : List SlitherDetector) (address : String)
    (oracle : Nat → AICallOutcome) : ScanResultMode2 :=
  ⟨(verifyDetectors detectors address oracle).1,
   mode2Summary detectors.length
     (verifyDetectors detectors address oracle).2.1.verified
     (verifyDetectors detectors address oracle).2.1.falsePositives⟩

/-- C9: with zero detector findings, `verifyDetectors` makes no AI call
and returns no vulnerabilities, and the emitted scan result carries an
empty verified list and the summary `"Slither: 0 | Verified: 0 | FP: 0"`,
for every possible AI oracle. -/
theorem processContractMode2_zero_detectors (address : String)
    (oracle : Nat → AICallOutcome) :
    verifyDetectors [] address oracle = ([], ⟨0, 0⟩, 0) ∧
    (processContractMode2Result [] address oracle).vulnerabilities = [] ∧
    (processContractMode2Result [] address oracle).summary =
      "Slither: 0 | Verified: 0 | FP: 0" := by
  refine ⟨rfl, rfl, ?_⟩
  show mode2Summary 0 0 0 = "Slither: 0 | Verified: 0 | FP: 0"
  rfl

/-! ### AST call graph construction (`internal/astparser/parser.go`) -/

/-- A solc AST node, the fields read by `BuildCallGraph` and its helpers.
The Go `Node` struct stores children in several slots (`Body`,
`Expression`, `Nodes`, `Statements`, `Arguments`, `Modifiers`);
`extractCalleesRecursive` descends into all of them uniformly, so they
are merged into the single `children` list here.  `referencedDeclaration`
is 0 when absent, as in Go. -/
inductive AstNode where
  | mk (id : Nat) (nodeType : String) (name : String) (implemented : Bool)
       (visibility : String) (kind : String) (referencedDeclaration : Nat)
       (children : List AstNode)

def AstNode.id : AstNode → Nat
  | .mk i _ _ _ _ _ _ _ => i

def AstNode.nodeType : AstNode → String
  | .mk _ t _ _ _ _ _ _ => t

def AstNode.name : AstNode → String
  | .mk _ _ n _ _ _ _ _ => n

def AstNode.implemented : AstNode → Bool
  | .mk _ _ _ b _ _ _ _ => b

def AstNode.visibility : AstNode → String
  | .mk _ _ _ _ v _ _ _ => v

def AstNode.kind : AstNode → String
  | .mk _ _ _ _ _ k _ _ => k

def AstNode.referencedDeclaration : AstNode → Nat
  | .mk _ _ _ _ _ _ r _ => r

def AstNode.children : AstNode → List AstNode
  | .mk _ _ _ _ _ _ _ c => c

/-- First pass of `BuildCallGraph` (parser.go:234-257): the
`(id, node)` pairs entered into `cg.Functions`, i.e. the
`FunctionDefinition` children with `implemented=true` of every top-level
`ContractDefinition`, in source order. -/
def collectFunctions (astNodes : List AstNode) : List (Nat × AstNode) :=
  astNodes.foldl
    (fun acc node =>
      if node.nodeType = "ContractDefinition" then
        node.children.foldl
          (fun acc2 subNode =>
            if subNode.nodeType = "FunctionDefinition" ∧ subNode.implemented then
              acc2 ++ [(subNode.id, subNode)]
            else acc2)
          acc
      else acc)
    []

/-- The key set of the Go map `cg.Functions` as a duplicate-free list. -/
def functionIds (astNodes : List AstNode) : List Nat :=
  ((collectFunctions astNodes).map Prod.fst).dedup

/-- Go map lookup `cg.Functions[funcID]`: later insertions overwrite
earlier ones. -/
def functionsMap (astNodes : List AstNode) (funcID : Nat) : Option AstNode :=
  (collectFunctions astNodes).foldl
    (fun acc p => if p.1 = funcID then some p.2 else acc) none

/-- Embeds `extractCalleesRecursive` (parser.go:282-317): a pre-order
walk appending every `referencedDeclaration` that names a known function
and has not been appended yet (`visited` is exactly the accumulator). -/
def extractCalleesAux (funcIds : List Nat) : AstNode → List Nat → List Nat
  | .mk _ _ _ _ _ _ ref children, acc =>
    goChildren children
      (if ref ≠ 0 ∧ funcIds.contains ref ∧ ¬ acc.contains ref then acc ++ [ref] else acc)
where goChildren : List AstNode → List Nat → List Nat
  | [], a => a
  | c :: cs, a => goChildren cs (extractCalleesAux funcIds c a)

/-- Embeds `extractCallees` (parser.go:275-280). -/
def extractCallees (funcIds : List Nat) (node : AstNode) : List Nat :=
  extractCalleesAux funcIds node []

/-- The `cg.Callees` map of `BuildCallGraph` (parser.go:259-264) as a
total function with Go's nil default. -/
def buildCallGraphCallees (astNodes : List AstNode) : Nat → List Nat :=
  fun funcID =>
    match functionsMap astNodes funcID with
    | some node => extractCallees (functionIds astNodes) node
    | none => []

/-- The `cg.Callers` reverse index of `BuildCallGraph` (parser.go:265-269):
for every function `funcID` and every `calleeID` in its callees,
`funcID` is appended to `Callers[calleeID]`. -/
def buildCallGraphCallers (astNodes : List AstNode) : Nat → List Nat :=
  (functionIds astNodes).foldl
    (fun callers funcID =>
      (buildCallGraphCallees astNodes funcID).foldl
        (fun cs calleeID =>
          fun k => if k = calleeID then cs k ++ [funcID] else cs k)
        callers)
    (fun _ => [])

theorem mem_calleesFoldl (j x y : Nat) (cs : List Nat) (f : Nat → List Nat) :
    y ∈ (cs.foldl (fun g c => fun k => if k = c then g k ++ [j] else g k) f) x ↔
      y ∈ f x ∨ (y = j ∧ x ∈ cs) := by
  induction cs generalizing f with
  | nil => simp
  | cons c cs ih =>
    rw [List.foldl_cons, ih]
    by_cases hxc : x = c
    · subst hxc
      rw [if_pos rfl]
      simp only [List.mem_append, List.mem_singleton, List.mem_cons]
      tauto
    · rw [if_neg hxc]
      simp only [List.mem_cons]
      tauto

theorem mem_callersFoldl (astNodes : List AstNode) (keys : List Nat) (x y : Nat)
    (f : Nat → List Nat) :
    y ∈ (keys.foldl
          (fun callers funcID =>
            (buildCallGraphCallees astNodes funcID).foldl
              (fun cs calleeID =>
                fun k => if k = calleeID then cs k ++ [funcID] else cs k)
              callers)
          f) x ↔
      y ∈ f x ∨ (y ∈ keys ∧ x ∈ buildCallGraphCallees astNodes y) := by
  induction keys generalizing f with
  | nil => simp
  | cons k ks ih =>
    rw [List.foldl_cons, ih, mem_calleesFoldl]
    constructor
    · rintro ((h | ⟨h1, h2⟩) | ⟨h1, h2⟩)
      · exact Or.inl h
      · subst h1
        exact Or.inr ⟨List.mem_cons_self _ _, h2⟩
      · exact Or.inr ⟨List.mem_cons_of_mem _ h1, h2⟩
    · rintro (h | ⟨h1, h2⟩)
      · exact Or.inl (Or.inl h)
      · rcases List.mem_cons.mp h1 with h1 | h1
        · subst h1
          exact Or.inl (Or.inr ⟨rfl, h2⟩)
        · exact Or.inr ⟨h1, h2⟩

/-- C2: in every call graph built by `BuildCallGraph`, for all function
ids `i` and `j` of the graph, `i ∈ Callees[j]` iff `j ∈ Callers[i]`. -/
theorem buildCallGraph_callees_callers_symm (astNodes : List AstNode) (i j : Nat)
    (hi : i ∈ functionIds astNodes) (hj : j ∈ functionIds astNodes) :
    i ∈ buildCallGraphCallees astNodes j ↔ j ∈ buildCallGraphCallers astNodes i := by
  unfold buildCallGraphCallers
  rw [mem_callersFoldl]
  simp only [List.not_mem_nil, false_or]
  constructor
  · intro h
    exact ⟨hj, h⟩
  · intro ⟨_, h⟩
    exact h

/-- Witness for C2 at a one-contract AST where function 1 (public)
calls function 2. -/
theorem buildCallGraph_callees_callers_symm_witness :
    2 ∈ buildCallGraphCallees
        [.mk 100 "ContractDefinition" "C" false "" "" 0
          [.mk 1 "FunctionDefinition" "f" true "public" "function" 0
            [.mk 10 "Identifier" "" false "" "" 2 []],
           .mk 2 "FunctionDefinition" "g" true "internal" "function" 0 []]] 1 ↔
      1 ∈ buildCallGraphCallers
        [.mk 100 "ContractDefinition" "C" false "" "" 0
          [.mk 1 "FunctionDefinition" "f" true "public" "function" 0
            [.mk 10 "Identifier" "" false "" "" 2 []],
           .mk 2 "FunctionDefinition" "g" true "internal" "function" 0 []]] 2 := by
  exact buildCallGraph_callees_callers_symm _ 2 1 (by decide) (by decide)

/-! ### Call-graph traversal depth caps (`parser.go`, `mode1_targeted.go`,
`mode2_fuzzy.go`) -/

/-- Embeds `strings.Contains`. -/
def containsSubList (pattern : List Char) : List Char → Bool
  | [] => pattern.isEmpty
  | c :: rest => pattern.isPrefixOf (c :: rest) || containsSubList pattern rest

/-- A `cg.Functions` entry as read by the traversal helpers. -/
structure CGFunction where
  id : Nat
  visibility : String
  kind : String
  name : String

/-- The fields of `CallGraphFull` used by the traversals: the function
table, the `Callees` adjacency (Go map with nil default), and the
`FunctionRefs` table (contract name, function name). -/
structure CallGraphData where
  functions : List CGFunction
  callees : Nat → List Nat
  functionRefs : Nat → Option (String × String)

/-- Embeds `GetPublicEntryPoints` (parser.go:395-405). -/
def getPublicEntryPoints (cg : CallGraphData) : List CGFunction :=
  cg.functions.filter (fun node =>
    node.visibility = "public" ∨ node.visibility = "external" ∨
    node.kind = "constructor" ∨ node.kind = "fallback" ∨ node.kind = "receive")

/-- Go's `_, exists := cg.Functions[id]`. -/
def functionExists (cg : CallGraphData) (id : Nat) : Bool :=
  cg.functions.any (fun n => n.id = id)

/-- Embeds `GetNodeName` (parser.go:532-543). -/
def getNodeName (cg : CallGraphData) (nodeID : Nat) : String :=
  match cg.functionRefs nodeID with
  | some ref => ref.1 ++ "." ++ ref.2
  | none =>
    match cg.functions.find? (fun n => n.id = nodeID) with
    | some node => node.name
    | none => "Node_" ++ toString nodeID

/-- One level of `getCalleesRecursiveHelper` (parser.go:378-393): iterate
the callees of `funcID`, mark each unvisited callee visited, and for
known functions record it and descend via `recFn` (the helper at the
next depth).  The state is `(result, visited)`. -/
def getCalleesRecursiveStep (cg : CallGraphData)
    (recFn : Nat → List Nat × List Nat → List Nat × List Nat)
    (funcID : Nat) (st : List Nat × List Nat) : List Nat × List Nat :=
  goList (cg.callees funcID) st
where goList : List Nat → List Nat × List Nat → List Nat × List Nat
  | [], st => st
  | calleeID :: rest, st =>
    goList rest
      (if st.2.contains calleeID then st
       else if functionExists cg calleeID then
         recFn calleeID (st.1 ++ [calleeID], st.2 ++ [calleeID])
       else (st.1, st.2 ++ [calleeID]))

/-- Embeds `getCalleesRecursiveHelper`: the Go pair `(depth, maxDepth)`
with exit condition `depth >= maxDepth` becomes the remaining budget
`fuel = maxDepth - depth`. -/
def getCalleesRecursiveHelper (cg : CallGraphData) :
    Nat → Nat → List Nat × List Nat → List Nat × List Nat
  | 0, _, st => st
  | fuel + 1, funcID, st =>
    getCalleesRecursiveStep cg (getCalleesRecursiveHelper cg fuel) funcID st

/-- Embeds `GetCalleesRecursive` (parser.go:370-376): starts at depth 0,
i.e. with budget `maxDepth`. -/
def getCalleesRecursive (cg : CallGraphData) (funcID maxDepth : Nat) : List Nat :=
  (getCalleesRecursiveHelper cg maxDepth funcID ([], [])).1

/-- Embeds `GetAllRelatedFunctions` (parser.go:593-610): the deduplicated
union over all public entry points of their recursive callees.  The Go
result order is map-iteration order; first-insertion order is used
here (membership is what the traversal determines). -/
def getAllRelatedFunctions (cg : CallGraphData) (maxDepth : Nat) : List Nat :=
  (getPublicEntryPoints cg).foldl
    (fun acc entry =>
      (getCalleesRecursive cg entry.id maxDepth).foldl
        (fun a calleeID => if a.contains calleeID then a else a ++ [calleeID]) acc)
    []

/-- The callee collection of the mode-1 targeted pipeline's
`buildCallGraphContext` (mode1_targeted.go:606): depth 5. -/
def buildCallGraphContextRelatedFuncs (cg : CallGraphData) : List Nat :=
  getAllRelatedFunctions cg 5

/-- The callee collection of the mode-2 verified pipeline's
`buildMode2CallGraphContext` (mode2_fuzzy.go:405): depth 3. -/
def buildMode2CallGraphContextRelatedFuncs (cg : CallGraphData) : List Nat :=
  getAllRelatedFunctions cg 3

/-- Embeds `strings.Repeat`. -/
def strRepeat (s : String) (n : Nat) : String :=
  String.join (List.replicate n s)

/-- One level of `printCallTreeRecursive` (parser.go:565-589): print each
callee (cycle edges as leaves), descending via `recFn` with the callee
added to the path-visited set; siblings keep the original set, which
models Go's add-then-delete. -/
def printCallTreeStep (cg : CallGraphData) (recFn : Nat → Nat → List Nat → String)
    (funcID depth : Nat) (pv : List Nat) : String :=
  goList (cg.callees funcID)
where goList : List Nat → String
  | [] => ""
  | calleeID :: rest =>
    (if pv.contains calleeID then
      strRepeat "  " depth ++ "-> " ++ getNodeName cg calleeID ++ " (Recursive Cycle)\n"
     else
      strRepeat "  " depth ++ "-> " ++ getNodeName cg calleeID ++ "\n" ++
        recFn calleeID (depth + 1) (pv ++ [calleeID])) ++
    goList rest

/-- Embeds `printCallTreeRecursive`: the Go exit `depth > maxDepth`
(which emits the max-depth marker) becomes budget
`fuel = maxDepth + 1 - depth` reaching 0. -/
def printCallTreeRecursive (cg : CallGraphData) : Nat → Nat → Nat → List Nat → String
  | 0, _, depth, _ => strRepeat "  " depth ++ "-> ... (max depth)\n"
  | fuel + 1, funcID, depth, pv =>
    printCallTreeStep cg (printCallTreeRecursive cg fuel) funcID depth pv

/-- Embeds `GenerateCallGraphTree` (parser.go:545-563): each public entry
is printed with a call tree capped at depth 10 (budget 10 at starting
depth 1). -/
def generateCallGraphTree (cg : CallGraphData) : String :=
  (getPublicEntryPoints cg).foldl
    (fun acc entry =>
      acc ++ "- Entry: " ++ getNodeName cg entry.id ++ "\n" ++
        printCallTreeRecursive cg 10 entry.id 1 [entry.id] ++ "\n")
    "Global Call Graph Tree:\n"

/-- A linear call chain `1 → 2 → ⋯ → n` whose only entry point is
function 1. -/
def chainCG (n : Nat) : CallGraphData where
  functions :=
    (List.range n).map
      (fun k => ⟨k + 1, if k = 0 then "public" else "internal", "function",
        "f" ++ toString (k + 1)⟩)
  callees := fun k => if 1 ≤ k ∧ k < n then [k + 1] else []
  functionRefs := fun _ => none

/-- C5 counterexample: on the 7-node chain, the mode-1 targeted
collection contains node 6 (it descends 5 levels), which a depth-3
traversal misses, while the mode-2 verified collection misses node 6,
which a depth-5 traversal reaches.  So the claimed caps (5 for mode 2,
3 for mode 1) contradict the code on a concrete call graph. -/
theorem callGraphDepthCaps_counterexample :
    6 ∈ buildCallGraphContextRelatedFuncs (chainCG 7) ∧
    6 ∉ getAllRelatedFunctions (chainCG 7) 3 ∧
    6 ∈ getAllRelatedFunctions (chainCG 7) 5 ∧
    6 ∉ buildMode2CallGraphContextRelatedFuncs (chainCG 7) := by
  exact ⟨by decide, by decide, by decide, by decide⟩

/-- C5 (amended): the caps are 10 for the call-tree printer, 5 for the
mode-1 targeted pipeline's callee collection, and 3 for the mode-2
verified pipeline's callee collection.  On the 7-chain the two
collections stop after 5 and 3 levels respectively, and the printer's
max-depth marker appears exactly when the tree is deeper than 10. -/
theorem callGraphDepthCaps :
    (∀ cg : CallGraphData,
      buildCallGraphContextRelatedFuncs cg = getAllRelatedFunctions cg 5) ∧
    (∀ cg : CallGraphData,
      buildMode2CallGraphContextRelatedFuncs cg = getAllRelatedFunctions cg 3) ∧
    buildCallGraphContextRelatedFuncs (chainCG 7) = [2, 3, 4, 5, 6] ∧
    buildMode2CallGraphContextRelatedFuncs (chainCG 7) = [2, 3, 4] ∧
    containsSubList "-> ... (max depth)".data (generateCallGraphTree (chainCG 11)).data = true ∧
    containsSubList "-> ... (max depth)".data (generateCallGraphTree (chainCG 10)).data = false := by
  exact ⟨fun _ => rfl, fun _ => rfl, by decide, by decide, by decide, by decide⟩

/-! ### First balanced JSON object extraction
(`extractFirstJSONObject`, src/unnamed/part_009:1222-1271) -/

/-- Embeds the scanning loop of `extractFirstJSONObject`.  Go iterates
over bytes; all compared characters are ASCII, so scanning the rune list
is behaviourally identical (indices count runes instead of bytes, and
the returned slice is the same text).  `start` is `none` for Go's `-1`;
a successful scan returns the `(start, i)` index pair of the balanced
object. -/
def extractLoop : List Char → Nat → Option Nat → Nat → Bool → Bool → Option (Nat × Nat)
  | [], _, _, _, _, _ => none
  | ch :: rest, i, start, depth, inString, escape =>
    if inString then
      if escape then extractLoop rest (i + 1) start depth true false
      else if ch = '\\' then extractLoop rest (i + 1) start depth true true
      else if ch = '"' then extractLoop rest (i + 1) start depth false escape
      else extractLoop rest (i + 1) start depth true escape
    else if ch = '"' then extractLoop rest (i + 1) start depth true escape
    else if ch = '\x7b' then
      extractLoop rest (i + 1) (if depth = 0 then some i else start) (depth + 1) inString escape
    else if ch = '\x7d' then
      if depth = 0 then extractLoop rest (i + 1) start depth inString escape
      else if depth = 1 then
        match start with
        | some st => some (st, i)
        | none => extractLoop rest (i + 1) start (depth - 1) inString escape
      else extractLoop rest (i + 1) start (depth - 1) inString escape
    else extractLoop rest (i + 1) start depth inString escape

/-- Embeds `extractFirstJSONObject`: the Go slice `s[start:i+1]` of the
first balanced object, or `("", false)`. -/
def extractFirstJSONObject (s : List Char) : List Char × Bool :=
  match extractLoop s 0 none 0 false false with
  | some (st, i) => ((s.drop st).take (i + 1 - st), true)
  | none => ([], false)

/-- Specification-side phase 1: the index of the first `'\x7b'` that
lies outside any double-quoted string literal, where string literals are
delimited by unescaped `'"'` and a backslash escapes the following
character. -/
def findOpenBrace : List Char → Nat → Bool → Bool → Option Nat
  | [], _, _, _ => none
  | ch :: rest, i, inString, escape =>
    if inString then
      if escape then findOpenBrace rest (i + 1) true false
      else if ch = '\\' then findOpenBrace rest (i + 1) true true
      else if ch = '"' then findOpenBrace rest (i + 1) false escape
      else findOpenBrace rest (i + 1) true escape
    else if ch = '"' then findOpenBrace rest (i + 1) true escape
    else if ch = '\x7b' then some i
    else findOpenBrace rest (i + 1) inString escape

/-- Specification-side phase 2: from just after the opening brace, the
index of the `'\x7d'` that balances it, counting only braces outside
string literals. -/
def findMatchingClose : List Char → Nat → Nat → Bool → Bool → Option Nat
  | [], _, _, _, _ => none
  | ch :: rest, i, depth, inString, escape =>
    if inString then
      if escape then findMatchingClose rest (i + 1) depth true false
      else if ch = '\\' then findMatchingClose rest (i + 1) depth true true
      else if ch = '"' then findMatchingClose rest (i + 1) depth false escape
      else findMatchingClose rest (i + 1) depth true escape
    else if ch = '"' then findMatchingClose rest (i + 1) depth true escape
    else if ch = '\x7b' then findMatchingClose rest (i + 1) (depth + 1) inString escape
    else if ch = '\x7d' then
      if depth = 1 then some i
      else findMatchingClose rest (i + 1) (depth - 1) inString escape
    else findMatchingClose rest (i + 1) depth inString escape

/-- The claim's description of `extractFirstJSONObject`: the slice from
the first string-literal-aware `'\x7b'` to its matching balanced
`'\x7d'`, and `("", false)` exactly when no such balanced object
exists. -/
def specFirstJSONObject (s : List Char) : List Char × Bool :=
  match findOpenBrace s 0 false false with
  | none => ([], false)
  | some st =>
    match findMatchingClose (s.drop (st + 1)) (st + 1) 1 false false with
    | none => ([], false)
    | some i => ((s.drop st).take (i + 1 - st), true)

theorem extractLoop_close (rest : List Char) :
    ∀ (i st depth : Nat) (inString escape : Bool), 1 ≤ depth →
      extractLoop rest i (some st) depth inString escape =
        (findMatchingClose rest i depth inString escape).map (fun j => (st, j)) := by
  induction rest with
  | nil => intro i st depth inString escape _; rfl
  | cons ch rest ih =>
    intro i st depth inString escape hd
    simp only [extractLoop, findMatchingClose]
    split_ifs with h1 h2 h3 h4 h5 h6 h7 h8 h9 h10 <;>
      first
        | rfl
        | exact ih _ _ _ _ _ hd
        | exact ih _ _ _ _ _ (by omega)
        | (exfalso; omega)

theorem findOpenBrace_le (l : List Char) :
    ∀ (i : Nat) (a b : Bool) (k : Nat), findOpenBrace l i a b = some k → i ≤ k := by
  induction l with
  | nil => intro i a b k h; cases h
  | cons ch rest ih =>
    intro i a b k h
    simp only [findOpenBrace] at h
    split_ifs at h with h1 h2 h3 h4 h5 h6
    all_goals first
      | exact le_trans (Nat.le_succ i) (ih _ _ _ _ h)
      | (injection h with h; omega)

theorem findOpenBrace_drop_eq (ch : Char) (rest : List Char) (i : Nat) (a b : Bool) :
    (match findOpenBrace rest (i + 1) a b with
      | none => (none : Option (Nat × Nat))
      | some k =>
        (findMatchingClose (rest.drop (k + 1 - (i + 1))) (k + 1) 1 false false).map
          (fun j => (k, j))) =
    (match findOpenBrace rest (i + 1) a b with
      | none => none
      | some k =>
        (findMatchingClose ((ch :: rest).drop (k + 1 - i)) (k + 1) 1 false false).map
          (fun j => (k, j))) := by
  rcases hfind : findOpenBrace rest (i + 1) a b with _ | k
  · rfl
  · have hk := findOpenBrace_le rest (i + 1) a b k hfind
    have hdrop : (ch :: rest).drop (k + 1 - i) = rest.drop (k + 1 - (i + 1)) := by
      have h : k + 1 - i = (k + 1 - (i + 1)) + 1 := by omega
      rw [h, List.drop_succ_cons]
    show (findMatchingClose (rest.drop (k + 1 - (i + 1))) (k + 1) 1 false false).map
        (fun j => (k, j)) =
      (findMatchingClose ((ch :: rest).drop (k + 1 - i)) (k + 1) 1 false false).map
        (fun j => (k, j))
    rw [hdrop]

theorem extractLoop_open (rest : List Char) :
    ∀ (i : Nat) (inString escape : Bool), (inString = false → escape = false) →
      extractLoop rest i none 0 inString escape =
        match findOpenBrace rest i inString escape with
        | none => none
        | some k =>
          (findMatchingClose (rest.drop (k + 1 - i)) (k + 1) 1 false false).map
            (fun j => (k, j)) := by
  induction rest with
  | nil => intro i inString escape _; rfl
  | cons ch rest ih =>
    intro i inString escape hinv
    have hstep : ∀ (a b : Bool), (a = false → b = false) →
        extractLoop rest (i + 1) none 0 a b =
          match findOpenBrace rest (i + 1) a b with
          | none => none
          | some k =>
            (findMatchingClose ((ch :: rest).drop (k + 1 - i)) (k + 1) 1 false false).map
              (fun j => (k, j)) := by
      intro a b hab
      rw [ih (i + 1) a b hab]
      exact findOpenBrace_drop_eq ch rest i a b
    have hfalse : ¬ inString = true → inString = false := by
      intro h
      simpa using h
    simp only [extractLoop, findOpenBrace]
    split_ifs with h1 h2 h3 h4 h5 h6 h7
    · exact hstep true false (by simp)
    · exact hstep true true (by simp)
    · exact hstep false escape (fun _ => by simpa using h2)
    · exact hstep true escape (by simp)
    · exact hstep true escape (by simp)
    · -- the first non-string opening brace: switch to the close scanner
      have h0 : inString = false := hfalse h1
      have he : escape = false := hinv h0
      rw [h0, he, extractLoop_close rest (i + 1) i 1 false false (le_refl 1)]
      show (findMatchingClose rest (i + 1) 1 false false).map (fun j => (i, j)) =
        (findMatchingClose ((ch :: rest).drop (i + 1 - i)) (i + 1) 1 false false).map
          (fun j => (i, j))
      have h : i + 1 - i = 1 := by omega
      rw [h]
      rfl
    · exact hstep inString escape hinv
    · exact hstep inString escape hinv

/-- C8: `extractFirstJSONObject` returns `(sub, true)` where `sub` spans
from the first `'\x7b'` outside any double-quoted string literal to its
matching balanced `'\x7d'` (braces inside string literals ignored,
backslash-escaped characters inside strings skipped), and returns
`("", false)` exactly when no such balanced object exists. -/
theorem extractFirstJSONObject_spec (s : List Char) :
    extractFirstJSONObject s = specFirstJSONObject s := by
  unfold extractFirstJSONObject specFirstJSONObject
  rw [extractLoop_open s 0 false false (by simp)]
  rcases hfind : findOpenBrace s 0 false false with _ | st
  · rfl
  · have h : st + 1 - 0 = st + 1 := by omega
    simp only [h]
    rcases findMatchingClose (s.drop (st + 1)) (st + 1) 1 false false with _ | j
    · rfl
    · rfl

/-! ### Pragma cleanup after flattening (`internal/solc/flatten.go:251-329`)

`cleanupPragmas` uses two Go regexes.  They are embedded as explicit
scanners over `List Char`:

* `pragma\s+solidity\s+([^;]+);` — `matchPragmaAt` recognises a match at
  a fixed position.  `\s` is RE2's Perl class `[\t\n\f\r ]`.  Greedy
  backtracking collapses: the whitespace runs are maximal (shrinking
  them cannot help, since the following literals start with
  non-whitespace), and `[^;]+` necessarily extends to the first `;`.
  The capture group is modelled as the whole stretch between `solidity`
  and `;` (the Go group excludes the leading `\s+` run; the difference
  is whitespace only and carries no version digits).
* `(\d+)\.(\d+)\.(\d+)` — `matchVersionAt`; each `\d+` is a maximal
  digit run.

`strconv.Atoi` on a captured digit run is exact `Nat` evaluation
(int64 overflow of absurdly long version components is not modelled). -/

/-- RE2's `\s`: `[\t\n\f\r ]`. -/
def isGoRegexSpace (c : Char) : Bool :=
  decide (c = '\t' ∨ c = '\n' ∨ c = '\x0c' ∨ c = '\r' ∨ c = ' ')

/-- Whether a list starts with an RE2 `\s` character. -/
def headIsSpace : List Char → Bool
  | c :: _ => isGoRegexSpace c
  | [] => false

/-- A match of `pragma\s+solidity\s+([^;]+);` anchored at the start of
`l`: returns the total match length and the text between `solidity` and
the `;`. -/
def matchPragmaAt (l : List Char) : Option (Nat × List Char) :=
  if "pragma".data.isPrefixOf l then
    let r1 := l.drop 6
    let w1 := r1.takeWhile isGoRegexSpace
    if w1.length = 0 then none
    else
      let r2 := r1.drop w1.length
      if "solidity".data.isPrefixOf r2 then
        let r3 := r2.drop 8
        let mid := r3.takeWhile (fun c => ¬ c = ';')
        if headIsSpace mid ∧ 2 ≤ mid.length ∧ (r3.drop mid.length).head? = some ';' then
          some (6 + w1.length + 8 + mid.length + 1, mid)
        else none
      else none
  else none

/-- The capture groups of `pragmaRe.FindAllStringSubmatch(source, -1)`:
non-overlapping leftmost matches, scanning left to right.  The fuel is
the remaining length, which the scan never exceeds. -/
def findPragmaMatchesAux : Nat → List Char → List (List Char)
  | 0, _ => []
  | _ + 1, [] => []
  | fuel + 1, c :: rest =>
    match matchPragmaAt (c :: rest) with
    | some (len, grp) => grp :: findPragmaMatchesAux fuel ((c :: rest).drop len)
    | none => findPragmaMatchesAux fuel rest

def pragmaMatches (s : List Char) : List (List Char) :=
  findPragmaMatchesAux s.length s

/-- `pragmaRe.ReplaceAllString(source, "")`: the same scan, emitting
unmatched characters and dropping matched statements. -/
def removePragmasAux : Nat → List Char → List Char
  | 0, l => l
  | _ + 1, [] => []
  | fuel + 1, c :: rest =>
    match matchPragmaAt (c :: rest) with
    | some (len, _) => removePragmasAux fuel ((c :: rest).drop len)
    | none => c :: removePragmasAux fuel rest

def removePragmas (s : List Char) : List Char :=
  removePragmasAux s.length s

/-- `strconv.Atoi` on a digit run. -/
def digitsToNat (l : List Char) : Nat :=
  l.foldl (fun acc c => acc * 10 + (c.toNat - 48)) 0

/-- A match of `(\d+)\.(\d+)\.(\d+)` anchored at the start of `l`:
returns the match length and the three parsed components. -/
def matchVersionAt (l : List Char) : Option (Nat × (Nat × Nat × Nat)) :=
  let d1 := l.takeWhile Char.isDigit
  if d1.length = 0 then none
  else
    match l.drop d1.length with
    | '.' :: r2 =>
      let d2 := r2.takeWhile Char.isDigit
      if d2.length = 0 then none
      else
        match r2.drop d2.length with
        | '.' :: r3 =>
          let d3 := r3.takeWhile Char.isDigit
          if d3.length = 0 then none
          else some (d1.length + 1 + d2.length + 1 + d3.length,
            (digitsToNat d1, digitsToNat d2, digitsToNat d3))
        | _ => none
    | _ => none

/-- `verNumRe.FindAllStringSubmatch(versionStr, -1)`, parsed. -/
def findVersionsAux : Nat → List Char → List (Nat × Nat × Nat)
  | 0, _ => []
  | _ + 1, [] => []
  | fuel + 1, c :: rest =>
    match matchVersionAt (c :: rest) with
    | some (len, v) => v :: findVersionsAux fuel ((c :: rest).drop len)
    | none => findVersionsAux fuel rest

def findVersions (grp : List Char) : List (Nat × Nat × Nat) :=
  findVersionsAux grp.length grp

/-- Go's `isHigher` comparison: strict lexicographic
(major, minor, patch). -/
def versionGt (a b : Nat × Nat × Nat) : Bool :=
  decide (b.1 < a.1 ∨ (a.1 = b.1 ∧ (b.2.1 < a.2.1 ∨ (a.2.1 = b.2.1 ∧ b.2.2 < a.2.2))))

/-- The `highestVersion` accumulation of `cleanupPragmas`: the first
version is always accepted (`highestVersion == ""`), later ones only
when strictly higher, so ties keep the earlier version. -/
def highestVersion (vs : List (Nat × Nat × Nat)) : Option (Nat × Nat × Nat) :=
  vs.foldl
    (fun acc v =>
      match acc with
      | none => some v
      | some b => if versionGt v b then some v else some b)
    none

def digitChar (k : Nat) : Char :=
  if k = 0 then '0' else if k = 1 then '1' else if k = 2 then '2'
  else if k = 3 then '3' else if k = 4 then '4' else if k = 5 then '5'
  else if k = 6 then '6' else if k = 7 then '7' else if k = 8 then '8' else '9'

/-- Decimal rendering of a natural number (`fmt.Sprintf("%d", n)`). -/
def natToCharsAux : Nat → Nat → List Char → List Char
  | 0, _, acc => acc
  | fuel + 1, n, acc =>
    if n / 10 = 0 then digitChar (n % 10) :: acc
    else natToCharsAux fuel (n / 10) (digitChar (n % 10) :: acc)

def natToChars (n : Nat) : List Char :=
  natToCharsAux (n + 1) n []

/-- `fmt.Sprintf("%d.%d.%d", major, minor, patch)`. -/
def versionChars (v : Nat × Nat × Nat) : List Char :=
  natToChars v.1 ++ '.' :: natToChars v.2.1 ++ '.' :: natToChars v.2.2

/-- `fmt.Sprintf("pragma solidity ^%s;", highestVersion)`. -/
def finalPragmaLine (v : Nat × Nat × Nat) : List Char :=
  "pragma solidity ^".data ++ versionChars v ++ [';']

/-- `strings.Split(s, "\n")`. -/
def splitOnNl : List Char → List (List Char)
  | [] => [[]]
  | c :: rest =>
    match splitOnNl rest with
    | [] => [[c]]
    | p :: ps => if c = '\n' then [] :: p :: ps else (c :: p) :: ps

/-- `strings.Join(lines, "\n")`. -/
def joinNl : List (List Char) → List Char
  | [] => []
  | [l] => l
  | l :: ls => l ++ '\n' :: joinNl ls

/-- The insertion step of `cleanupPragmas` (flatten.go:303-327): split
the pragma-free source into lines, insert the canonical pragma directly
after the first line containing `SPDX-License-Identifier` (or at the
top when there is none), and re-join with newlines. -/
def insertFinalPragma (s : List Char) (v : Nat × Nat × Nat) : List Char :=
  match (splitOnNl (removePragmas s)).findIdx?
      (fun line => containsSubList "SPDX-License-Identifier".data line) with
  | some i =>
    joinNl ((splitOnNl (removePragmas s)).take (i + 1) ++ [finalPragmaLine v] ++
      (splitOnNl (removePragmas s)).drop (i + 1))
  | none => joinNl ([finalPragmaLine v] ++ splitOnNl (removePragmas s))

/-- Embeds `cleanupPragmas` (flatten.go:251-329): collect all pragma
statement matches (no matches: return unchanged); parse all numeric
`X.Y.Z` versions and keep the highest (none: return unchanged); remove
every matched statement and insert the canonical highest-version
pragma. -/
def cleanupPragmas (s : List Char) : List Char :=
  if pragmaMatches s = [] then s
  else
    match highestVersion ((pragmaMatches s).flatMap findVersions) with
    | none => s
    | some v => insertFinalPragma s v

theorem splitOnNl_ne_nil (l : List Char) : splitOnNl l ≠ [] := by
  induction l with
  | nil => simp [splitOnNl]
  | cons c rest ih =>
    cases h : splitOnNl rest with
    | nil => simp [splitOnNl, h]
    | cons p ps =>
      simp only [splitOnNl, h]
      split_ifs <;> simp

theorem mem_splitOnNl_not_newline (l : List Char) :
    ∀ p ∈ splitOnNl l, '\n' ∉ p := by
  induction l with
  | nil =>
    intro p hp
    simp [splitOnNl] at hp
    simp [hp]
  | cons c rest ih =>
    intro p hp
    cases h : splitOnNl rest with
    | nil => exact absurd h (splitOnNl_ne_nil rest)
    | cons q qs =>
      simp only [splitOnNl, h] at hp
      split_ifs at hp with hc
      · rcases List.mem_cons.mp hp with hp | hp
        · simp [hp]
        · exact ih p (by rw [h]; exact hp)
      · rcases List.mem_cons.mp hp with hp | hp
        · subst hp
          intro hmem
          rcases List.mem_cons.mp hmem with hmem | hmem
          · exact hc hmem.symm
          · exact ih q (by rw [h]; exact List.mem_cons_self q qs) hmem
        · exact ih p (by rw [h]; exact List.mem_cons_of_mem q hp)

theorem splitOnNl_of_not_newline (l : List Char) (h : '\n' ∉ l) :
    splitOnNl l = [l] := by
  induction l with
  | nil => rfl
  | cons c rest ih =>
    have hc : ¬ c = '\n' := fun hc => h (by simp [hc])
    have hr : splitOnNl rest = [rest] := ih (fun hm => h (List.mem_cons_of_mem c hm))
    simp only [splitOnNl, hr]
    rw [if_neg hc]

theorem splitOnNl_append_newline (l t : List Char) (h : '\n' ∉ l) :
    splitOnNl (l ++ '\n' :: t) = l :: splitOnNl t := by
  induction l with
  | nil =>
    cases ht : splitOnNl t with
    | nil => exact absurd ht (splitOnNl_ne_nil t)
    | cons q qs => simp [splitOnNl, ht]
  | cons c l' ih =>
    have hc : ¬ c = '\n' := fun hc => h (by simp [hc])
    have h' : '\n' ∉ l' := fun hm => h (List.mem_cons_of_mem c hm)
    show splitOnNl (c :: (l' ++ '\n' :: t)) = (c :: l') :: splitOnNl t
    simp only [splitOnNl, ih h']
    rw [if_neg hc]

theorem splitOnNl_joinNl (ps : List (List Char)) :
    ps ≠ [] → (∀ p ∈ ps, '\n' ∉ p) → splitOnNl (joinNl ps) = ps := by
  induction ps with
  | nil => intro h _; exact absurd rfl h
  | cons p ps ih =>
    intro _ hnn
    cases ps with
    | nil =>
      have h1 : joinNl [p] = p := rfl
      rw [h1]
      exact splitOnNl_of_not_newline p (hnn p (by simp))
    | cons q ps' =>
      have h1 : joinNl (p :: q :: ps') = p ++ '\n' :: joinNl (q :: ps') := rfl
      rw [h1, splitOnNl_append_newline p _ (hnn p (by simp)),
        ih (by simp) (fun x hx => hnn x (List.mem_cons_of_mem p hx))]

theorem digitChar_isDigit (k : Nat) : (digitChar k).isDigit = true := by
  unfold digitChar
  split_ifs <;> decide

theorem natToCharsAux_digits :
    ∀ (fuel n : Nat) (acc : List Char), (∀ c ∈ acc, c.isDigit = true) →
      ∀ c ∈ natToCharsAux fuel n acc, c.isDigit = true := by
  intro fuel
  induction fuel with
  | zero => intro n acc hacc; exact hacc
  | succ fuel ih =>
    intro n acc hacc c hc
    simp only [natToCharsAux] at hc
    split_ifs at hc
    · rcases List.mem_cons.mp hc with hc | hc
      · rw [hc]; exact digitChar_isDigit _
      · exact hacc c hc
    · refine ih (n / 10) (digitChar (n % 10) :: acc) ?_ c hc
      intro d hd
      rcases List.mem_cons.mp hd with hd | hd
      · rw [hd]; exact digitChar_isDigit _
      · exact hacc d hd

theorem natToChars_digits (n : Nat) : ∀ c ∈ natToChars n, c.isDigit = true :=
  natToCharsAux_digits (n + 1) n [] (by simp)

theorem newline_not_mem_finalPragmaLine (v : Nat × Nat × Nat) :
    '\n' ∉ finalPragmaLine v := by
  intro hmem
  have hnotdig : ¬ ('\n'.isDigit = true) := by decide
  unfold finalPragmaLine versionChars at hmem
  rcases List.mem_append.mp hmem with h | h
  · rcases List.mem_append.mp h with h | h
    · exact absurd h (by decide)
    · rcases List.mem_append.mp h with h | h
      · rcases List.mem_append.mp h with h | h
        · exact hnotdig (natToChars_digits _ _ h)
        · rcases List.mem_cons.mp h with h | h
          · exact absurd h (by decide)
          · exact hnotdig (natToChars_digits _ _ h)
      · rcases List.mem_cons.mp h with h | h
        · exact absurd h (by decide)
        · exact hnotdig (natToChars_digits _ _ h)
  · exact absurd h (by decide)

theorem containsSubList_of_isPrefixOf (p l : List Char)
    (h : p.isPrefixOf l = true) : containsSubList p l = true := by
  cases l with
  | nil =>
    cases p with
    | nil => rfl
    | cons c cs => simp [List.isPrefixOf] at h
  | cons c rest => simp [containsSubList, h]

theorem pat_containsSub_finalPragmaLine (v : Nat × Nat × Nat) :
    containsSubList "pragma solidity".data (finalPragmaLine v) = true := by
  apply containsSubList_of_isPrefixOf
  rw [List.isPrefixOf_iff_prefix]
  have h1 : "pragma solidity".data <+: "pragma solidity ^".data := by decide
  have h2 : "pragma solidity ^".data <+: finalPragmaLine v :=
    ⟨versionChars v ++ [';'], by simp [finalPragmaLine]⟩
  exact h1.trans h2

theorem versionGt_down (u b v : Nat × Nat × Nat)
    (h1 : versionGt u b = true) (h2 : versionGt u v = false) :
    versionGt b v = false := by
  rcases u with ⟨u1, u2, u3⟩
  rcases b with ⟨b1, b2, b3⟩
  rcases v with ⟨v1, v2, v3⟩
  simp only [versionGt, decide_eq_true_eq, decide_eq_false_iff_not] at *
  omega

theorem versionGt_false_trans (u b v : Nat × Nat × Nat)
    (h1 : versionGt u b = false) (h2 : versionGt b v = false) :
    versionGt u v = false := by
  rcases u with ⟨u1, u2, u3⟩
  rcases b with ⟨b1, b2, b3⟩
  rcases v with ⟨v1, v2, v3⟩
  simp only [versionGt, decide_eq_false_iff_not] at *
  omega

theorem versionGt_irrefl (b : Nat × Nat × Nat) : versionGt b b = false := by
  rcases b with ⟨b1, b2, b3⟩
  simp [versionGt]

theorem highestVersionAux_spec (vs : List (Nat × Nat × Nat)) :
    ∀ b : Nat × Nat × Nat,
      ∃ v, vs.foldl
          (fun acc v =>
            match acc with
            | none => some v
            | some b => if versionGt v b then some v else some b)
          (some b) = some v ∧
        (v = b ∨ v ∈ vs) ∧ versionGt b v = false ∧
        ∀ u ∈ vs, versionGt u v = false := by
  induction vs with
  | nil =>
    intro b
    exact ⟨b, rfl, Or.inl rfl, versionGt_irrefl b, by simp⟩
  | cons u vs' ih =>
    intro b
    rw [List.foldl_cons]
    by_cases hgt : versionGt u b = true
    · obtain ⟨v, hv, hvmem, hbv, hall⟩ := ih u
      refine ⟨v, ?_, ?_, ?_, ?_⟩
      · show List.foldl _ (if versionGt u b then some u else some b) vs' = some v
        rw [if_pos hgt]
        exact hv
      · rcases hvmem with h | h
        · exact Or.inr (by simp [h])
        · exact Or.inr (List.mem_cons_of_mem u h)
      · exact versionGt_down u b v hgt hbv
      · intro w hw
        rcases List.mem_cons.mp hw with hw | hw
        · rw [hw]; exact hbv
        · exact hall w hw
    · have hgt' : versionGt u b = false := by
        cases h : versionGt u b
        · rfl
        · exact absurd h hgt
      obtain ⟨v, hv, hvmem, hbv, hall⟩ := ih b
      refine ⟨v, ?_, ?_, ?_, ?_⟩
      · show List.foldl _ (if versionGt u b then some u else some b) vs' = some v
        rw [if_neg (by simp [hgt'])]
        exact hv
      · rcases hvmem with h | h
        · exact Or.inl h
        · exact Or.inr (List.mem_cons_of_mem u h)
      · exact hbv
      · intro w hw
        rcases List.mem_cons.mp hw with hw | hw
        · rw [hw]; exact versionGt_false_trans u b v hgt' hbv
        · exact hall w hw

theorem highestVersion_spec (vs : List (Nat × Nat × Nat)) (h : vs ≠ []) :
    ∃ v, highestVersion vs = some v ∧ v ∈ vs ∧
      ∀ u ∈ vs, versionGt u v = false := by
  cases vs with
  | nil => exact absurd rfl h
  | cons b vs' =>
    obtain ⟨v, hv, hvmem, hbv, hall⟩ := highestVersionAux_spec vs' b
    refine ⟨v, hv, ?_, ?_⟩
    · rcases hvmem with h | h
      · simp [h]
      · exact List.mem_cons_of_mem b h
    · intro u hu
      rcases List.mem_cons.mp hu with hu | hu
      · rw [hu]; exact hbv
      · exact hall u hu

theorem splitOnNl_insertFinalPragma (s : List Char) (v : Nat × Nat × Nat) :
    ∃ pre post,
      splitOnNl (insertFinalPragma s v) = pre ++ [finalPragmaLine v] ++ post ∧
      pre ++ post = splitOnNl (removePragmas s) := by
  have hpieces := mem_splitOnNl_not_newline (removePragmas s)
  unfold insertFinalPragma
  rcases hidx : (splitOnNl (removePragmas s)).findIdx?
      (fun line => containsSubList "SPDX-License-Identifier".data line) with _ | i
  · refine ⟨[], splitOnNl (removePragmas s), ?_, rfl⟩
    have hfree : ∀ p ∈ [finalPragmaLine v] ++ splitOnNl (removePragmas s), '\n' ∉ p := by
      intro p hp
      rcases List.mem_append.mp hp with hp | hp
      · rw [List.mem_singleton.mp hp]
        exact newline_not_mem_finalPragmaLine v
      · exact hpieces p hp
    rw [splitOnNl_joinNl _ (by simp) hfree]
    simp
  · refine ⟨(splitOnNl (removePragmas s)).take (i + 1),
      (splitOnNl (removePragmas s)).drop (i + 1), ?_, List.take_append_drop _ _⟩
    have hfree : ∀ p ∈ (splitOnNl (removePragmas s)).take (i + 1) ++ [finalPragmaLine v] ++
        (splitOnNl (removePragmas s)).drop (i + 1), '\n' ∉ p := by
      intro p hp
      rcases List.mem_append.mp hp with hp | hp
      · rcases List.mem_append.mp hp with hp | hp
        · exact hpieces p (by
            have h := List.take_append_drop (i + 1) (splitOnNl (removePragmas s))
            rw [← h]
            exact List.mem_append.mpr (Or.inl hp))
        · rw [List.mem_singleton.mp hp]
          exact newline_not_mem_finalPragmaLine v
      · exact hpieces p (by
          have h := List.take_append_drop (i + 1) (splitOnNl (removePragmas s))
          rw [← h]
          exact List.mem_append.mpr (Or.inr hp))
    rw [splitOnNl_joinNl _ (by simp) hfree]

/-- C7 counterexample: on a flattened source whose pragma constraints
carry no numeric `X.Y.Z` version (`^0.8`, `^0.7`), `cleanupPragmas`
returns the source unchanged: no pragma is removed, nothing is inserted,
and the output contains two `pragma solidity` lines, not exactly one. -/
theorem cleanupPragmas_counterexample :
    cleanupPragmas
        "pragma solidity ^0.8;\npragma solidity ^0.7;\ncontract C \x7b \x7d".data =
      "pragma solidity ^0.8;\npragma solidity ^0.7;\ncontract C \x7b \x7d".data ∧
    (splitOnNl (cleanupPragmas
        "pragma solidity ^0.8;\npragma solidity ^0.7;\ncontract C \x7b \x7d".data)).countP
      (fun line => containsSubList "pragma solidity".data line) = 2 := by
  exact ⟨by decide, by decide⟩

/-- C7 (amended): whenever at least one pragma constraint carries a
numeric `X.Y.Z` version and the statement-matcher removes every
`pragma solidity` occurrence, the flattened output contains exactly one
`pragma solidity` line, namely `pragma solidity ^X.Y.Z;` for the highest
parsed version (inserted directly after the SPDX line when one exists,
otherwise at the top); when no numeric version is found the source is
returned unchanged. -/
theorem cleanupPragmas_single_pragma_line (s : List Char)
    (hv : (pragmaMatches s).flatMap findVersions ≠ [])
    (hres : ∀ line ∈ splitOnNl (removePragmas s),
      containsSubList "pragma solidity".data line = false) :
    (splitOnNl (cleanupPragmas s)).countP
        (fun line => containsSubList "pragma solidity".data line) = 1 ∧
    ∃ v, highestVersion ((pragmaMatches s).flatMap findVersions) = some v ∧
      v ∈ (pragmaMatches s).flatMap findVersions ∧
      (∀ u ∈ (pragmaMatches s).flatMap findVersions, versionGt u v = false) ∧
      finalPragmaLine v ∈ splitOnNl (cleanupPragmas s) := by
  have hm : pragmaMatches s ≠ [] := by
    intro h
    exact hv (by simp [h])
  obtain ⟨v, hvsome, hvmem, hvmax⟩ := highestVersion_spec _ hv
  have hclean : cleanupPragmas s = insertFinalPragma s v := by
    unfold cleanupPragmas
    rw [if_neg hm, hvsome]
  obtain ⟨pre, post, hsplit, hjoin⟩ := splitOnNl_insertFinalPragma s v
  rw [hclean, hsplit]
  have hpre : ∀ x ∈ pre, containsSubList "pragma solidity".data x = false := by
    intro x hx
    exact hres x (by rw [← hjoin]; exact List.mem_append.mpr (Or.inl hx))
  have hpost : ∀ x ∈ post, containsSubList "pragma solidity".data x = false := by
    intro x hx
    exact hres x (by rw [← hjoin]; exact List.mem_append.mpr (Or.inr hx))
  constructor
  · rw [List.countP_append, List.countP_append]
    have h1 : pre.countP (fun line => containsSubList "pragma solidity".data line) = 0 := by
      rw [List.countP_eq_zero]
      intro x hx
      simp [hpre x hx]
    have h2 : post.countP (fun line => containsSubList "pragma solidity".data line) = 0 := by
      rw [List.countP_eq_zero]
      intro x hx
      simp [hpost x hx]
    have h3 : ([finalPragmaLine v]).countP
        (fun line => containsSubList "pragma solidity".data line) = 1 := by
      simp [List.countP_cons, pat_containsSub_finalPragmaLine v]
    rw [h1, h2, h3]
  · exact ⟨v, hvsome, hvmem, hvmax, by simp⟩

/-- Witness for C7 (amended) on a concrete flattened source with an SPDX
line and two versioned pragmas: the output carries exactly one
`pragma solidity` line. -/
theorem cleanupPragmas_single_pragma_line_witness :
    (splitOnNl (cleanupPragmas
        "// SPDX-License-Identifier: MIT\npragma solidity ^0.8.19;\npragma solidity 0.7.6;\ncontract C \x7b \x7d".data)).countP
      (fun line => containsSubList "pragma solidity".data line) = 1 :=
  (cleanupPragmas_single_pragma_line
    "// SPDX-License-Identifier: MIT\npragma solidity ^0.8.19;\npragma solidity 0.7.6;\ncontract C \x7b \x7d".data
    (by decide) (by decide)).1

end Vespera
